import Mathlib

/-!
Verification of `taskcluster-lib-pulse` (src/client.js, src/consumer.js).

The JavaScript source is embedded shallowly:

* Connection states are the literal strings used by `client.js`
  (`"waiting"`, `"connecting"`, `"connected"`, `"retiring"`, `"finished"`),
  so that string comparisons in the source (including comparisons against
  strings that are not reachable states) are reproduced exactly.
* The `Client` connection manager is a state (running flag + list of
  connection states, newest first, mirroring `this.connections`), and the
  asynchronous interleavings of `recycle()` / `connect()` / `retire()` /
  `failed()` are a step relation on that state.
* The consumer's delivery callback and routing-key parser are pure
  functions of their inputs; JavaScript objects built by property
  assignment (`routing[name] = v`) are association lists updated in
  insertion order, with `Option` capturing JavaScript `undefined`.
-/

namespace Pulse

/-! ### client.js: Connection / Client state machine -/

/-- State of the Client connection manager: the `running` flag and the
`state` fields of the connections in `this.connections` (newest first). -/
structure ClientState where
  running : Bool
  connections : List String
deriving DecidableEq, Repr

/-- Embeds `Connection.retire()` acting on the connection's state field:
a no-op when the state is `"retiring"` or `"finished"`, otherwise the
state becomes `"retiring"` (client.js lines 331-338; the later move to
`"finished"` happens after the retirement delay and is a separate step). -/
def retireState (st : String) : String :=
  if st = "retiring" ∨ st = "finished" then st else "retiring"

/-- Embeds `Client.recycle()` (client.js lines 127-154): retire the head
connection if one exists, and if `running`, prepend a fresh connection in
state `"waiting"`. -/
def recycle (s : ClientState) : ClientState :=
  let conns :=
    match s.connections with
    | [] => []
    | c :: rest => retireState c :: rest
  if s.running then ⟨s.running, "waiting" :: conns⟩ else ⟨s.running, conns⟩

/-- State of a freshly constructed Client: the constructor sets
`running = true` with no connections and immediately calls `recycle()`
(client.js lines 89-99). -/
def initClient : ClientState := recycle ⟨true, []⟩

/-- Embeds the guard of `Connection.failed()` (client.js lines 322-329):
`failed()` goes on to call `this.client.recycle()` exactly when the test
`this.state === 'retired' || this.state === 'finished'` is false.  The
source compares against the string `'retired'`, not `'retiring'`. -/
def failedActs (st : String) : Bool :=
  !(st == "retired" || st == "finished")

/-- Embeds `Client.stop()` (client.js lines 106-122).  The returned pair
is the state after the call together with the message of the exception
thrown by `assert(this.running, 'Not running')`, if any; the assert runs
before any mutation, so on failure the state is returned unchanged. -/
def stop (s : ClientState) : ClientState × Option String :=
  if s.running = false then (s, some "Not running")
  else (recycle ⟨false, s.connections⟩, none)

/-- One asynchronous step of the manager and its connections.  Steps
correspond to the suspension points of client.js: `recycle()` (also run
for a timer tick or on behalf of `failed()`), `stop()`, the two halves of
`connect()` around the dial, `retire()`, the retirement delay elapsing
(`state = 'finished'`), and the Client's `once('finished')` handler
removing the connection from the list. -/
inductive Step : ClientState → ClientState → Prop
  | recycle (s) : Step s (Pulse.recycle s)
  | stop (s) : s.running = true → Step s (Pulse.recycle ⟨false, s.connections⟩)
  | connectStart (s i) : s.connections.get? i = some "waiting" →
      Step s ⟨s.running, s.connections.set i "connecting"⟩
  | connectDone (s i) : s.connections.get? i = some "connecting" →
      Step s ⟨s.running, s.connections.set i "connected"⟩
  | connFailed (s i st) : s.connections.get? i = some st → failedActs st = true →
      Step s (Pulse.recycle s)
  | retire (s i st) : s.connections.get? i = some st →
      Step s ⟨s.running, s.connections.set i (retireState st)⟩
  | finish (s i) : s.connections.get? i = some "retiring" →
      Step s ⟨s.running, s.connections.set i "finished"⟩
  | remove (s i) : s.connections.get? i = some "finished" →
      Step s ⟨s.running, s.connections.eraseIdx i⟩

/-- States reachable from a freshly constructed manager. -/
def Reachable (s : ClientState) : Prop :=
  Relation.ReflTransGen Step initClient s

/-- A connection state is retired when it is `"retiring"` or `"finished"`. -/
def retiredState (st : String) : Prop :=
  st = "retiring" ∨ st = "finished"

instance (st : String) : Decidable (retiredState st) := by
  unfold retiredState; infer_instance

/-- All connections other than the newest are retired. -/
def tailRetired (s : ClientState) : Prop :=
  ∀ st ∈ s.connections.tail, retiredState st

/-- Whenever one connection is connecting or connected, every other
connection is already `"retiring"` or `"finished"`. -/
def secondConnectedSafe (s : ClientState) : Prop :=
  ∀ i j sti stj, i ≠ j →
    s.connections.get? i = some sti →
    (sti = "connecting" ∨ sti = "connected") →
    s.connections.get? j = some stj →
    retiredState stj

/-! ### client.js: withChannel -/

/-- JavaScript values a user callback may resolve with, as far as
`withChannel` inspects them (client.js lines 199-225): it applies the
global `isNaN` to the resolved value. -/
inductive JSVal where
  | num (n : Int)
  | nan
  | undef
deriving DecidableEq, Repr

/-- JavaScript `isNaN` on the values of `JSVal`: ordinary numbers are not
NaN; `NaN` is; `undefined` coerces to `NaN` so `isNaN(undefined)` is true. -/
def jsIsNaN : JSVal → Bool
  | .num _ => false
  | .nan => true
  | .undef => true

/-- Observable outcome of the body of `Client.withChannel` for one
connection: whether the callback ran, whether `channel.close()` was
invoked, and whether the promise rejected (with the callback's error). -/
structure ChannelTrace where
  ranFn : Bool
  closeCalled : Bool
  rejected : Bool
deriving DecidableEq, Repr

/-- Embeds the async body of `Client.withChannel` (client.js lines
200-224).  `openOk` is whether `conn.amqp[method]()` resolved (on
rejection the `.catch` sets `flag = 1` and the body returns without
running `fn`).  `fnResult` is the outcome of `await fn(channel)`: a
resolved `JSVal` or a rejection.  The `finally` block calls
`channel.close()` only when `isNaN(returntype)` holds, where
`returntype` is still `undefined` if `fn` threw. -/
def withChannelBody (openOk : Bool) (fnResult : Except Unit JSVal) : ChannelTrace :=
  if !openOk then ⟨false, false, false⟩
  else
    match fnResult with
    | .ok v => ⟨true, jsIsNaN v, false⟩
    | .error _ => ⟨true, jsIsNaN JSVal.undef, true⟩

/-! ### consumer.js: delivery handling -/

/-- The `fields` of an amqplib delivery (`msg.fields`); consumer.js reads
`msg.fields.exchange`, `msg.fields.routingKey`, `msg.fields.redelivered`. -/
structure MsgFields where
  exchange : String
  routingKey : String
  redelivered : Bool
deriving DecidableEq, Repr

/-- Context object passed to `monitor.reportError` (consumer.js lines
142-146).  The `exchange` and `redelivered` fields are `Option`s because
the source builds them from `msg.exchange` and `msg.redelivered`:
properties that do not exist on an amqplib message (whose data lives
under `msg.fields`), hence JavaScript `undefined`, embedded as `none`. -/
structure ReportCtx where
  queueName : String
  exchange : Option String
  redelivered : Option Bool
deriving DecidableEq, Repr

/-- Terminal actions the consume callback takes for one delivery. -/
inductive DeliveryAction where
  | ack
  | nack (requeue : Bool)
  | report (ctx : ReportCtx)
deriving DecidableEq, Repr

/-- Embeds the consume callback of `PulseQueue._handleConnection`
(consumer.js lines 133-152) as the list of actions taken for one
delivery, given whether `await this._handleMessage(msg)` threw.
On success: `channel.ack(msg)`.  On failure with
`msg.fields.redelivered`: `channel.nack(msg, false, false)` then
`monitor.reportError(err, {queueName, exchange: msg.exchange,
redelivered: msg.redelivered})` — the latter two read absent top-level
properties of `msg`, so both context fields are `undefined` (`none`).
On failure without redelivery: `channel.nack(msg, false, true)` only. -/
def consumeCallback (queueName : String) (fields : MsgFields)
    (handlerThrew : Bool) : List DeliveryAction :=
  if handlerThrew then
    if fields.redelivered then
      [.nack false, .report ⟨queueName, none, none⟩]
    else
      [.nack true]
  else
    [.ack]

/-- Embeds the exclusive-queue `retiring` listener registered by
`PulseQueue._handleConnection` (consumer.js lines 176-184): the listener
exists only when `this.exclusiveQueue` is set, and when the connection
retires while `this.client.running` is true it emits an `error` event
whose error has the given message and `code`.  The result is the
`(message, code)` pair of the emitted error, if any.  The source writes
the code string as `'ExclusiveQueueDisconneted'`. -/
def retiringListener (exclusiveQueue : Bool) (clientRunning : Bool) :
    Option (String × String) :=
  if exclusiveQueue then
    if clientRunning then
      some ("Exclusive queue disconnected; messages may be lost!",
            "ExclusiveQueueDisconneted")
    else none
  else none

/-! ### consumer.js: queue declaration -/

/-- Arguments of `channel.assertQueue` in `_createAndBindQueue`
(consumer.js lines 99-104). -/
structure QueueDecl where
  name : String
  exclusive : Bool
  durable : Bool
  autoDelete : Bool
deriving DecidableEq, Repr

/-- Embeds `Client.fullObjectName(kind, name)` (client.js lines 161-163). -/
def fullObjectName (ns kind name : String) : String :=
  kind ++ "/" ++ ns ++ "/" ++ name

/-- Embeds the queue declaration of `PulseQueue._createAndBindQueue`
(consumer.js lines 95-104).  `slug` is the value of `slugid.v4()`; the
source evaluates `slugid.v4()` inside `_createAndBindQueue` itself, so
every call — the one from `start()` and the one from each
`_handleConnection` — draws a fresh slug. -/
def createAndBindQueue (ns : String) (queueName : Option String)
    (exclusiveQueue : Bool) (slug : String) : QueueDecl :=
  { name := fullObjectName ns "queue"
      (queueName.getD ("exclusive/" ++ slug))
    exclusive := exclusiveQueue
    durable := !exclusiveQueue
    autoDelete := exclusiveQueue }

/-! ### consumer.js: routing-key reference lookup and parser -/

/-- One descriptor of a routing-key reference (`{name, multipleWords}`). -/
structure RefEntry where
  name : String
  multipleWords : Bool
deriving DecidableEq, Repr

/-- One entry of the consumer's `bindings` list, as used by
`_handleMessage`: the exchange and the optional `routingKeyReference`
(`none` embeds a binding without that property). -/
structure Binding where
  exchange : String
  routingKeyReference : Option (List RefEntry)
deriving DecidableEq, Repr

/-- Embeds the reference lookup of `PulseQueue._handleMessage`
(consumer.js lines 213-219): a `forEach` over `this.bindings` that
overwrites `routingKeyReference` whenever a binding matches the
delivery's exchange and carries a (truthy) `routingKeyReference`. -/
def findRoutingKeyReference (bindings : List Binding) (exchange : String) :
    Option (List RefEntry) :=
  bindings.foldl
    (fun acc b =>
      if b.exchange == exchange && b.routingKeyReference.isSome then
        b.routingKeyReference
      else acc)
    none

/-- A JavaScript object built by property assignments, as an association
list in insertion order.  Values are `Option String`: `none` embeds an
assignment of `undefined` (from `shift()`/`pop()` on an empty array). -/
abbrev JSObj := List (String × Option String)

/-- Property assignment `obj[k] = v`: overwrite an existing key in place,
otherwise append (JavaScript objects keep insertion order). -/
def jsSet (obj : JSObj) (k : String) (v : Option String) : JSObj :=
  match obj with
  | [] => [(k, v)]
  | (k₁, v₁) :: rest =>
      if k₁ = k then (k, v) :: rest else (k₁, v₁) :: jsSet rest k v

/-- Property access `obj[k]`: `undefined` (`none`) when the key is absent. -/
def jsGet (obj : JSObj) (k : String) : Option String :=
  match obj with
  | [] => none
  | (k₁, v₁) :: rest => if k₁ = k then v₁ else jsGet rest k

/-- The forward loop of the parser (consumer.js lines 227-233): walk the
reference assigning `keys.shift()` to each name, stopping at the first
`multipleWords` entry.  Returns the routing object so far, the remaining
keys, and the unprocessed tail of the reference (beginning with the
`multipleWords` entry when one was hit).  `shift()` on an empty array
yields `undefined` and leaves the array empty, embedded by `head?` and
`tail`. -/
def forwardLoop : List RefEntry → List String → JSObj →
    JSObj × List String × List RefEntry
  | [], keys, routing => (routing, keys, [])
  | r :: rs, keys, routing =>
      if r.multipleWords then (routing, keys, r :: rs)
      else forwardLoop rs keys.tail (jsSet routing r.name keys.head?)

/-- The backward loop of the parser (consumer.js lines 237-243), applied
to the reversed list of entries after the `multipleWords` entry: assign
`keys.pop()` to each name, stopping at a `multipleWords` entry.  The
`Bool` records whether the loop stopped early at such an entry (in which
case the source's `assert(i == j)` fails).  `pop()` on an empty array
yields `undefined` and leaves the array empty, embedded by `getLast?`
and `dropLast`. -/
def backwardLoop : List RefEntry → List String → JSObj →
    JSObj × List String × Bool
  | [], keys, routing => (routing, keys, false)
  | r :: rs, keys, routing =>
      if r.multipleWords then (routing, keys, true)
      else backwardLoop rs keys.dropLast (jsSet routing r.name keys.getLast?)

/-- Embeds the routing-key parser of `PulseQueue._handleMessage`
(consumer.js lines 221-247) on the list of dot-separated parts of the
routing key.  `none` is the exception from `assert(i == j)` (reachable
only with more than one `multipleWords` entry).  The `multipleWords`
entry receives `keys.join('.')` of the remaining parts. -/
def parseRoutingKeyParts (ref : List RefEntry) (keys : List String) :
    Option JSObj :=
  let fwd := forwardLoop ref keys []
  match fwd.2.2 with
  | [] => some fwd.1
  | multi :: after =>
      let bwd := backwardLoop after.reverse fwd.2.1 fwd.1
      if bwd.2.2 then none
      else some (jsSet bwd.1 multi.name
        (some (String.intercalate "." bwd.2.1)))

/-- Embeds the parser on the routing key itself: the source starts with
`message.routingKey.split('.')` (consumer.js line 225); JavaScript
`split('.')` with the one-character separator is `String.split` on the
predicate matching `'.'`. -/
def parseRoutingKey (ref : List RefEntry) (routingKey : String) :
    Option JSObj :=
  parseRoutingKeyParts ref (routingKey.split (· == '.'))

/-- Joining the parsed routing map back into a key, following the spec's
round-trip law: the values of the map, taken in reference order, joined
with dots; `none` if any value is `undefined`.  (Spec-side definition,
used to state the round-trip claim against the parser.) -/
def allSome : List (Option String) → Option (List String)
  | [] => some []
  | none :: _ => none
  | some s :: rest => (allSome rest).map (s :: ·)

/-- Values of the routing map in reference order, joined with dots. -/
def joinRouting (ref : List RefEntry) (routing : JSObj) : Option String :=
  (allSome (ref.map fun r => jsGet routing r.name)).map
    (String.intercalate ".")

/-- Characterization of the forward loop's assignments: entry `k` of the
reference receives dot-part `k` of the key (or `undefined` when the key
has fewer parts), in insertion order. -/
def frontAssign : List RefEntry → List String → JSObj
  | [], _ => []
  | r :: rs, keys => (r.name, keys.head?) :: frontAssign rs keys.tail

/-- Characterization of the backward loop's assignments: walking a list
of entries, each receives the last remaining dot-part (or `undefined`),
consuming the key from the end. -/
def backAssign : List RefEntry → List String → JSObj
  | [], _ => []
  | r :: rs, keys => (r.name, keys.getLast?) :: backAssign rs keys.dropLast

/-- Iterated `dropLast`: what remains of the keys after the backward loop
has consumed `n` parts from the end. -/
def chopN : Nat → List String → List String
  | 0, keys => keys
  | n + 1, keys => chopN n keys.dropLast

/-- Closed form of the parser's output for a reference
`pre ++ m :: post` whose only `multipleWords` entry is `m`: the entries
before `m` bound to dot-parts from the front, the entries after `m`
bound (in the backward walk's order) to dot-parts from the end, and `m`
bound to the joined remainder. -/
def multiParsed (pre : List RefEntry) (m : RefEntry) (post : List RefEntry)
    (keys : List String) : JSObj :=
  frontAssign pre keys
    ++ backAssign post.reverse (keys.drop pre.length)
    ++ [(m.name,
        some (String.intercalate "."
          (chopN post.length (keys.drop pre.length))))]

/-! ## Theorems -/

/-- Appending on the left of a string is cancellative. -/
theorem string_append_left_cancel (a b c : String) (h : a ++ b = a ++ c) :
    b = c := by
  have h2 := congrArg String.data h
  simp only [String.data_append] at h2
  exact String.ext (List.append_cancel_left h2)

/-- C2: the code evaluated at the state the claim calls a no-op.  In
state `"retiring"`, `failed()` is not a no-op: its guard compares the
state against the string `'retired'`, which is not one of the five
documented connection states, so the comparison fails and `failed()`
calls `this.client.recycle()`.  The claim (and the documented state
machine, client.js lines 253-262) require a no-op here; `"finished"`
behaves as documented. -/
theorem failed_acts_in_retiring_state :
    failedActs "retiring" = true ∧ retiredState "retiring" ∧
      failedActs "finished" = false := by
  refine ⟨rfl, ?_, rfl⟩
  exact Or.inl rfl

/-- C3: the code evaluated at the failing input.  When the channel opens
successfully and the callback resolves with the number `42`, the
`finally` block's guard `isNaN(returntype)` is false, so
`channel.close()` is never called, contradicting the claim (and the
function's own comment, client.js lines 195-198) that the channel is
closed on every exit path.  A rejection or a non-numeric resolution
still closes the channel, and a failed open is swallowed without
running the callback. -/
theorem withChannel_leaves_channel_open_on_numeric_return :
    withChannelBody true (Except.ok (JSVal.num 42))
        = ⟨true, false, false⟩ ∧
      withChannelBody true (Except.error ()) = ⟨true, true, true⟩ ∧
      withChannelBody false (Except.ok (JSVal.num 42))
        = ⟨false, false, false⟩ := by
  exact ⟨rfl, rfl, rfl⟩

/-- C4 counterexample: with an exclusive queue, a retiring connection and
a running manager, the emitted error's code is not
`ExclusiveQueueDisconnected`: the source writes the literal
`'ExclusiveQueueDisconneted'`. -/
theorem retiringListener_code_is_misspelled :
    retiringListener true true
        = some ("Exclusive queue disconnected; messages may be lost!",
                "ExclusiveQueueDisconneted") ∧
      ("ExclusiveQueueDisconneted" : String) ≠ "ExclusiveQueueDisconnected" := by
  exact ⟨rfl, by decide⟩

/-- C4 amended: for an exclusive-queue consumer, when the connection
retires while the manager is running an `error` event is emitted whose
error carries code `ExclusiveQueueDisconneted` (sic); when the manager
is no longer running, nothing is emitted. -/
theorem retiringListener_spec (running : Bool) :
    retiringListener true running =
      if running then
        some ("Exclusive queue disconnected; messages may be lost!",
              "ExclusiveQueueDisconneted")
      else none := by
  cases running <;> rfl

/-- C5 counterexample: for a redelivered delivery on exchange `"exch"`
whose handler throws, the delivery is nacked without requeue and the
monitor report's context carries `undefined` (not `"exch"`, not `true`)
in its `exchange` and `redelivered` fields, because the source reads
`msg.exchange` and `msg.redelivered` instead of `msg.fields.exchange`
and `msg.fields.redelivered`. -/
theorem consumeCallback_reports_undefined_fields :
    consumeCallback "q" ⟨"exch", "rk", true⟩ true
        = [.nack false, .report ⟨"q", none, none⟩] ∧
      (none : Option String) ≠ some "exch" ∧
      (none : Option Bool) ≠ some true := by
  exact ⟨rfl, by decide, by decide⟩

/-- C5 amended: every delivery gets exactly one terminal broker action
(ack or nack); a successful handler acks; a first failure nacks with
requeue and reports nothing; a failure of a redelivered message nacks
without requeue and reports the error with a context whose `queueName`
is the queue name but whose `exchange` and `redelivered` fields are
`undefined`. -/
theorem consumeCallback_spec (qn : String) (f : MsgFields) (threw : Bool) :
    (consumeCallback qn f threw).countP
        (fun a => match a with
          | .ack => true
          | .nack _ => true
          | .report _ => false) = 1 ∧
      consumeCallback qn f threw =
        (if threw then
          if f.redelivered then [.nack false, .report ⟨qn, none, none⟩]
          else [.nack true]
        else [.ack]) := by
  rcases f with ⟨e, rk, rd⟩
  cases threw <;> cases rd <;> simp [consumeCallback, List.countP_cons]

/-- C8 counterexample: `slugid.v4()` is evaluated inside
`_createAndBindQueue`, so the call made by `start()` and the call made
by `_handleConnection` on the next connection draw distinct slugs and
declare queues with different names — not the same queue, contradicting
the claim that the slug is fresh once per `start()`. -/
theorem exclusive_queue_name_differs_per_call :
    createAndBindQueue "ns" none true "s0"
        = ⟨"queue/ns/exclusive/s0", true, false, true⟩ ∧
      (createAndBindQueue "ns" none true "s0").name
        ≠ (createAndBindQueue "ns" none true "s1").name := by
  exact ⟨by decide, by decide⟩

/-- C8 amended: every declaration of an exclusive queue (one per
`_createAndBindQueue` call, each with a freshly drawn slug) uses the
name `queue/<namespace>/exclusive/<slug>` and is exclusive, non-durable
and auto-delete; distinct slugs give distinct queue names. -/
theorem exclusive_queue_decl_spec (ns slug slug' : String) :
    (createAndBindQueue ns none true slug).name
        = "queue" ++ "/" ++ ns ++ "/" ++ ("exclusive/" ++ slug) ∧
      (createAndBindQueue ns none true slug).exclusive = true ∧
      (createAndBindQueue ns none true slug).durable = false ∧
      (createAndBindQueue ns none true slug).autoDelete = true ∧
      (slug ≠ slug' →
        (createAndBindQueue ns none true slug).name
          ≠ (createAndBindQueue ns none true slug').name) := by
  refine ⟨rfl, rfl, rfl, rfl, fun hs hn => hs ?_⟩
  have hn' : "queue/" ++ (ns ++ ("/" ++ ("exclusive/" ++ slug)))
      = "queue/" ++ (ns ++ ("/" ++ ("exclusive/" ++ slug'))) := by
    simpa [createAndBindQueue, fullObjectName, String.append_assoc] using hn
  exact string_append_left_cancel _ _ _
    (string_append_left_cancel _ _ _
      (string_append_left_cancel _ _ _
        (string_append_left_cancel _ _ _ hn')))

/-- C10: `stop()` called while the manager's `running` flag is false
throws `Not running` (from `assert(this.running, 'Not running')`) and
leaves the state unchanged; in particular a second `stop()` does this. -/
theorem stop_throws_when_not_running (s : ClientState)
    (h : s.running = false) : stop s = (s, some "Not running") := by
  simp [stop, h]

/-- C10 witness: a stopped manager. -/
theorem stop_throws_when_not_running_witness :
    stop ⟨false, []⟩ = (⟨false, []⟩, some "Not running") :=
  stop_throws_when_not_running ⟨false, []⟩ rfl

/-- The `forEach` of the reference lookup, as a fold characterized by the
last matching binding, for any starting accumulator. -/
theorem findRef_foldl (exchange : String) (l : List Binding) :
    ∀ acc : Option (List RefEntry),
      l.foldl
          (fun acc b =>
            if b.exchange == exchange && b.routingKeyReference.isSome then
              b.routingKeyReference
            else acc)
          acc
        = ((l.filter fun b =>
              b.exchange == exchange && b.routingKeyReference.isSome).getLast?).elim
            acc (fun b => b.routingKeyReference) := by
  induction l with
  | nil => intro acc; rfl
  | cons b rest ih =>
    intro acc
    by_cases hb : (b.exchange == exchange && b.routingKeyReference.isSome) = true
    · rw [List.foldl_cons, if_pos hb, ih, List.filter_cons, if_pos hb]
      cases hfil : rest.filter
          (fun b => b.exchange == exchange && b.routingKeyReference.isSome) with
      | nil => rfl
      | cons c t =>
        cases hlast : (c :: t).getLast? with
        | none => simp at hlast
        | some d => rw [List.getLast?_cons_cons, hlast]; rfl
    · rw [List.foldl_cons, if_neg hb, ih, List.filter_cons, if_neg hb]

/-- C9: when several bindings match the delivery's exchange and carry a
`routingKeyReference`, the `forEach` in `_handleMessage` leaves the
reference of the last such binding in the list: later bindings override
earlier ones. -/
theorem findRoutingKeyReference_last_wins (bindings : List Binding)
    (exchange : String) :
    findRoutingKeyReference bindings exchange =
      ((bindings.filter fun b =>
          b.exchange == exchange && b.routingKeyReference.isSome).getLast?).bind
        (fun b => b.routingKeyReference) := by
  rw [findRoutingKeyReference, findRef_foldl]
  cases hfil : (bindings.filter fun b =>
      b.exchange == exchange && b.routingKeyReference.isSome).getLast? <;> rfl

/-! ### C1: at most one connected connection -/

/-- Retiring a connection always leaves it retired. -/
theorem retiredState_retireState (st : String) :
    retiredState (retireState st) := by
  unfold retireState
  split
  · assumption
  · exact Or.inl rfl

/-- Recycling preserves the invariant that all non-head connections are
retired: the old head is retired before the new connection is prepended. -/
theorem tailRetired_recycle (b : Bool) (l : List String)
    (h : ∀ st ∈ l.tail, retiredState st) : tailRetired (recycle ⟨b, l⟩) := by
  cases l with
  | nil => cases b <;> intro st hst <;> simp [recycle] at hst
  | cons c rest =>
    cases b with
    | false =>
      show tailRetired ⟨false, retireState c :: rest⟩
      intro st hst
      exact h st (by simpa using hst)
    | true =>
      show tailRetired ⟨true, "waiting" :: retireState c :: rest⟩
      intro st hst
      have hst' : st = retireState c ∨ st ∈ rest := by simpa using hst
      cases hst' with
      | inl he => subst he; exact retiredState_retireState c
      | inr hm => exact h st (by simpa using hm)

/-- Setting any connection to a retired state preserves the invariant. -/
theorem tailRetired_set (b : Bool) (l : List String) (i : Nat) (v : String)
    (h : ∀ st ∈ l.tail, retiredState st) (hv : retiredState v) :
    tailRetired ⟨b, l.set i v⟩ := by
  cases l with
  | nil => intro st hst; simp at hst
  | cons c rest =>
    cases i with
    | zero =>
      intro st hst
      exact h st (by simpa using hst)
    | succ j =>
      intro st hst
      have hst' : st ∈ rest.set j v := by simpa using hst
      cases List.mem_or_eq_of_mem_set hst' with
      | inl hm => exact h st (by simpa using hm)
      | inr he => subst he; exact hv

/-- A connection whose state is not retired is the head, so overwriting
its state (with anything) leaves the tail untouched. -/
theorem tailRetired_set_nonretired (b : Bool) (l : List String) (i : Nat)
    (w : String) (h : ∀ st ∈ l.tail, retiredState st)
    (hi : l.get? i = some w) (hw : ¬retiredState w) (v : String) :
    tailRetired ⟨b, l.set i v⟩ := by
  cases l with
  | nil => simp at hi
  | cons c rest =>
    cases i with
    | zero =>
      intro st hst
      exact h st (by simpa using hst)
    | succ j =>
      exact absurd (h w (List.get?_mem (by simpa using hi))) hw

/-- Removing a finished connection preserves the invariant. -/
theorem tailRetired_eraseIdx (b : Bool) (l : List String) (i : Nat)
    (h : ∀ st ∈ l.tail, retiredState st) :
    tailRetired ⟨b, l.eraseIdx i⟩ := by
  cases l with
  | nil => intro st hst; simp [List.eraseIdx] at hst
  | cons c rest =>
    cases i with
    | zero =>
      intro st hst
      exact h st ((List.tail_sublist rest).subset (by simpa using hst))
    | succ j =>
      intro st hst
      simp only [List.eraseIdx_cons_succ, List.tail_cons] at hst
      exact h st ((List.eraseIdx_sublist rest j).subset hst)

/-- Every step of the manager preserves the invariant. -/
theorem step_tailRetired {s s' : ClientState} (hs : Step s s')
    (h : tailRetired s) : tailRetired s' := by
  cases hs with
  | recycle => exact tailRetired_recycle s.running s.connections h
  | stop hr => exact tailRetired_recycle false s.connections h
  | connectStart i hi =>
    exact tailRetired_set_nonretired s.running s.connections i "waiting" h hi
      (by decide) _
  | connectDone i hi =>
    exact tailRetired_set_nonretired s.running s.connections i "connecting" h hi
      (by decide) _
  | connFailed i st hi hact =>
    exact tailRetired_recycle s.running s.connections h
  | retire i st hi =>
    exact tailRetired_set _ _ _ _ h (retiredState_retireState st)
  | finish i hi => exact tailRetired_set _ _ _ _ h (Or.inr rfl)
  | remove i hi => exact tailRetired_eraseIdx _ _ _ h

/-- Every reachable state of the manager has all non-head connections
retired. -/
theorem reachable_tailRetired {s : ClientState} (h : Reachable s) :
    tailRetired s := by
  induction h with
  | refl => intro st hst; simp [initClient, recycle] at hst
  | tail hab hbc ih => exact step_tailRetired hbc ih

/-- An element found past the head lies in the tail. -/
theorem get?_succ_mem_tail {l : List String} {j : Nat} {a : String}
    (h : l.get? (j + 1) = some a) : a ∈ l.tail := by
  cases l with
  | nil => simp at h
  | cons c rest => exact List.get?_mem (by simpa using h)

/-- C1: in every state reachable by any sequence of
`recycle()` / `connect()` / `retire()` / `failed()` / `stop()` steps from
a freshly constructed manager, at most one connection is in state
`"connected"`; moreover whenever some connection is connecting or
connected, every other connection is already `"retiring"` or
`"finished"` — so when a second connection enters `"connected"`, the
previously connected one is already retired. -/
theorem at_most_one_connected (s : ClientState) (h : Reachable s) :
    s.connections.countP (· == "connected") ≤ 1 ∧ secondConnectedSafe s := by
  have ht := reachable_tailRetired h
  constructor
  · cases hc : s.connections with
    | nil => simp
    | cons c rest =>
      have hz : rest.countP (· == "connected") = 0 := by
        rw [List.countP_eq_zero]
        intro a ha
        have : retiredState a := ht a (by simp [hc, ha])
        rcases this with rfl | rfl <;> decide
      rw [List.countP_cons, hz]
      cases hcc : (c == "connected") <;> simp
  · intro i j sti stj hij hi hsti hj
    cases i with
    | succ i' =>
      have := ht sti (get?_succ_mem_tail hi)
      rcases hsti with rfl | rfl <;>
        rcases this with h' | h' <;> exact absurd h' (by decide)
    | zero =>
      cases j with
      | zero => exact absurd rfl hij
      | succ j' => exact ht stj (get?_succ_mem_tail hj)

/-- C1 witness: the freshly constructed manager is reachable and
satisfies both conjuncts. -/
theorem at_most_one_connected_witness :
    initClient.connections.countP (· == "connected") ≤ 1 ∧
      secondConnectedSafe initClient :=
  at_most_one_connected initClient Relation.ReflTransGen.refl

/-! ### Routing-key parser: object and loop characterizations -/

/-- Assigning a fresh key appends the pair at the end of the object. -/
theorem jsSet_fresh (obj : JSObj) (k : String) (v : Option String)
    (h : ∀ p ∈ obj, p.1 ≠ k) : jsSet obj k v = obj ++ [(k, v)] := by
  induction obj with
  | nil => rfl
  | cons p rest ih =>
    have hp : p.1 ≠ k := h p (List.mem_cons_self p rest)
    cases p with
    | mk k₁ v₁ =>
      simp only [jsSet, if_neg hp, List.cons_append, List.cons.injEq, true_and]
      exact ih fun q hq => h q (List.mem_cons_of_mem _ hq)

/-- Reading a key absent from a leading segment skips that segment. -/
theorem jsGet_append_fresh (obj obj₂ : JSObj) (k : String)
    (h : ∀ p ∈ obj, p.1 ≠ k) : jsGet (obj ++ obj₂) k = jsGet obj₂ k := by
  induction obj with
  | nil => rfl
  | cons p rest ih =>
    have hp : p.1 ≠ k := h p (List.mem_cons_self p rest)
    cases p with
    | mk k₁ v₁ =>
      simp only [List.cons_append, jsGet, if_neg hp]
      exact ih fun q hq => h q (List.mem_cons_of_mem _ hq)

/-- The keys stored by the forward walk are the reference names. -/
theorem frontAssign_fst (pre : List RefEntry) :
    ∀ keys, (frontAssign pre keys).map Prod.fst = pre.map RefEntry.name := by
  induction pre with
  | nil => intro keys; rfl
  | cons r rs ih =>
    intro keys
    simp only [frontAssign, List.map_cons, ih]

/-- The keys stored by the backward walk are the walked names. -/
theorem backAssign_fst (l : List RefEntry) :
    ∀ keys, (backAssign l keys).map Prod.fst = l.map RefEntry.name := by
  induction l with
  | nil => intro keys; rfl
  | cons r rs ih =>
    intro keys
    simp only [backAssign, List.map_cons, ih]

/-- The forward loop walks a multi-free segment of the reference,
appending one assignment per entry (dot-parts taken from the front, the
key consumed by one `shift()` per entry), and stops exactly at the first
`multipleWords` entry when the remaining reference starts with one. -/
theorem forwardLoop_eq (pre : List RefEntry) :
    ∀ (suffix : List RefEntry) (keys : List String) (acc : JSObj),
      (∀ r ∈ pre, r.multipleWords = false) →
      (∀ r ∈ pre, ∀ p ∈ acc, p.1 ≠ r.name) →
      (pre.map RefEntry.name).Nodup →
      (∀ m post, suffix = m :: post → m.multipleWords = true) →
      forwardLoop (pre ++ suffix) keys acc
        = (acc ++ frontAssign pre keys, keys.drop pre.length, suffix) := by
  induction pre with
  | nil =>
    intro suffix keys acc hnm hfresh hnd hsuf
    cases suffix with
    | nil => simp [forwardLoop, frontAssign]
    | cons m post =>
      simp [forwardLoop, hsuf m post rfl, frontAssign]
  | cons r rs ih =>
    intro suffix keys acc hnm hfresh hnd hsuf
    have hr : r.multipleWords = false := hnm r (List.mem_cons_self r rs)
    simp only [List.cons_append, forwardLoop, hr, Bool.false_eq_true,
      if_false, List.append_eq]
    rw [jsSet_fresh acc r.name keys.head?
      (fun p hp => hfresh r (List.mem_cons_self r rs) p hp)]
    rw [ih suffix keys.tail (acc ++ [(r.name, keys.head?)])
      (fun r' hr' => hnm r' (List.mem_cons_of_mem r hr'))
      ?fresh
      (by simpa using hnd.of_cons)
      hsuf]
    case fresh =>
      intro r' hr' p hp
      rcases List.mem_append.mp hp with hp | hp
      · exact hfresh r' (List.mem_cons_of_mem r hr') p hp
      · have hpr : p = (r.name, keys.head?) := by simpa using hp
        subst hpr
        intro hcon
        have : r.name ∈ rs.map RefEntry.name :=
          List.mem_map.mpr ⟨r', hr', hcon.symm⟩
        exact (List.nodup_cons.mp (by simpa using hnd)).1 this
    have hdrop : keys.tail.drop rs.length = keys.drop (rs.length + 1) := by
      rw [← List.drop_one, List.drop_drop, Nat.add_comm]
    simp [frontAssign, List.append_assoc, hdrop]

/-- The backward loop walks a multi-free list of entries, appending one
assignment per entry (dot-parts taken from the end, the key consumed by
one `pop()` per entry), and never reports a stray `multipleWords`
entry. -/
theorem backwardLoop_eq (l : List RefEntry) :
    ∀ (keys : List String) (acc : JSObj),
      (∀ r ∈ l, r.multipleWords = false) →
      (∀ r ∈ l, ∀ p ∈ acc, p.1 ≠ r.name) →
      (l.map RefEntry.name).Nodup →
      backwardLoop l keys acc
        = (acc ++ backAssign l keys, chopN l.length keys, false) := by
  induction l with
  | nil => intro keys acc hnm hfresh hnd; simp [backwardLoop, backAssign, chopN]
  | cons r rs ih =>
    intro keys acc hnm hfresh hnd
    have hr : r.multipleWords = false := hnm r (List.mem_cons_self r rs)
    simp only [backwardLoop, hr, Bool.false_eq_true, if_false]
    rw [jsSet_fresh acc r.name keys.getLast?
      (fun p hp => hfresh r (List.mem_cons_self r rs) p hp)]
    rw [ih keys.dropLast (acc ++ [(r.name, keys.getLast?)])
      (fun r' hr' => hnm r' (List.mem_cons_of_mem r hr'))
      ?fresh
      (by simpa using hnd.of_cons)]
    case fresh =>
      intro r' hr' p hp
      rcases List.mem_append.mp hp with hp | hp
      · exact hfresh r' (List.mem_cons_of_mem r hr') p hp
      · have hpr : p = (r.name, keys.getLast?) := by simpa using hp
        subst hpr
        intro hcon
        have : r.name ∈ rs.map RefEntry.name :=
          List.mem_map.mpr ⟨r', hr', hcon.symm⟩
        exact (List.nodup_cons.mp (by simpa using hnd)).1 this
    simp [backAssign, chopN, List.append_assoc]

/-- The parser on a reference without any `multipleWords` entry: pure
forward assignment, with no check that the number of dot-parts matches
the number of entries. -/
theorem parse_no_multi (ref : List RefEntry) (keys : List String)
    (hnm : ∀ r ∈ ref, r.multipleWords = false)
    (hnd : (ref.map RefEntry.name).Nodup) :
    parseRoutingKeyParts ref keys = some (frontAssign ref keys) := by
  have hf := forwardLoop_eq ref [] keys [] hnm
    (by intro r hr p hp; simp at hp) hnd
    (by intro m post h; simp at h)
  rw [List.append_nil] at hf
  simp [parseRoutingKeyParts, hf]

/-- The parser on a reference with exactly one `multipleWords` entry:
forward walk over `pre`, backward walk over `post`, joined remainder for
`m`. -/
theorem parse_one_multi (pre : List RefEntry) (m : RefEntry)
    (post : List RefEntry) (keys : List String)
    (hm : m.multipleWords = true)
    (hpre : ∀ r ∈ pre, r.multipleWords = false)
    (hpost : ∀ r ∈ post, r.multipleWords = false)
    (hnd : ((pre ++ m :: post).map RefEntry.name).Nodup) :
    parseRoutingKeyParts (pre ++ m :: post) keys
      = some (multiParsed pre m post keys) := by
  rw [List.map_append, List.map_cons] at hnd
  have hndpre : (pre.map RefEntry.name).Nodup := hnd.of_append_left
  have hndtail : (m.name :: post.map RefEntry.name).Nodup := hnd.of_append_right
  have hndpost : (post.map RefEntry.name).Nodup := hndtail.of_cons
  have hdisj := List.disjoint_of_nodup_append hnd
  have hm_notin_pre : m.name ∉ pre.map RefEntry.name :=
    fun h => hdisj h (List.mem_cons_self _ _)
  have hm_notin_post : m.name ∉ post.map RefEntry.name :=
    (List.nodup_cons.mp hndtail).1
  have hdisj_pre_post : ∀ a, a ∈ post.map RefEntry.name →
      a ∈ pre.map RefEntry.name → False :=
    fun a hpo hpr => hdisj hpr (List.mem_cons_of_mem _ hpo)
  have hf := forwardLoop_eq pre (m :: post) keys [] hpre
    (by intro r hr p hp; simp at hp) hndpre
    (by intro m' post' h; injection h with h1 h2; exact h1 ▸ hm)
  rw [List.nil_append] at hf
  have hb := backwardLoop_eq post.reverse (keys.drop pre.length)
    (frontAssign pre keys)
    (fun r hr => hpost r (List.mem_reverse.mp hr))
    ?fresh
    (by rw [List.map_reverse]; exact List.nodup_reverse.mpr hndpost)
  case fresh =>
    intro r hr p hp
    have hp₁ : p.1 ∈ pre.map RefEntry.name := by
      rw [← frontAssign_fst pre keys]
      exact List.mem_map_of_mem Prod.fst hp
    intro hcon
    apply hdisj_pre_post p.1 ?_ hp₁
    rw [hcon]
    exact List.mem_map_of_mem RefEntry.name (List.mem_reverse.mp hr)
  simp only [parseRoutingKeyParts, hf, hb, List.length_reverse,
    Bool.false_eq_true, if_false]
  rw [jsSet_fresh]
  · rfl
  · intro p hp
    rcases List.mem_append.mp hp with hp | hp
    · have hp₁ : p.1 ∈ pre.map RefEntry.name := by
        rw [← frontAssign_fst pre keys]
        exact List.mem_map_of_mem Prod.fst hp
      intro hcon
      exact hm_notin_pre (hcon ▸ hp₁)
    · have hp₁ : p.1 ∈ post.map RefEntry.name := by
        have : p.1 ∈ post.reverse.map RefEntry.name := by
          rw [← backAssign_fst post.reverse (keys.drop pre.length)]
          exact List.mem_map_of_mem Prod.fst hp
        rw [List.map_reverse, List.mem_reverse] at this
        exact this
      intro hcon
      exact hm_notin_post (hcon ▸ hp₁)

/-! ### Values stored by the walks -/

theorem head?_eq_get?_zero (l : List String) : l.head? = l.get? 0 := by
  cases l <;> rfl

theorem tail_get?_succ (l : List String) (n : Nat) :
    l.tail.get? n = l.get? (n + 1) := by
  cases l <;> rfl

/-- The forward walk binds entry `i` to dot-part `i` of the key,
`undefined` when the key is too short; extra dot-parts are ignored. -/
theorem map_jsGet_frontAssign (pre : List RefEntry) :
    ∀ (keys : List String) (rest : JSObj),
      (pre.map RefEntry.name).Nodup →
      pre.map (fun r => jsGet (frontAssign pre keys ++ rest) r.name)
        = (List.range pre.length).map (fun i => keys.get? i) := by
  induction pre with
  | nil => intro keys rest hnd; rfl
  | cons r rs ih =>
    intro keys rest hnd
    have hnotin : r.name ∉ rs.map RefEntry.name :=
      (List.nodup_cons.mp (by simpa using hnd)).1
    rw [show (r :: rs).length = rs.length + 1 from rfl,
      List.range_succ_eq_map]
    simp only [List.map_cons, List.map_map]
    congr 1
    · simp [frontAssign, jsGet, head?_eq_get?_zero]
    · have hstep : ∀ r' ∈ rs,
          jsGet (frontAssign (r :: rs) keys ++ rest) r'.name
            = jsGet (frontAssign rs keys.tail ++ rest) r'.name := by
        intro r' hr'
        have hne : r.name ≠ r'.name := fun hcon =>
          hnotin (hcon ▸ List.mem_map_of_mem RefEntry.name hr')
        simp [frontAssign, jsGet, hne]
      rw [List.map_congr_left hstep, ih keys.tail rest (by simpa using hnd.of_cons)]
      refine List.map_congr_left fun i _ => ?_
      simp [tail_get?_succ]

/-- The forward walk, when the key has enough parts: entry `i` is bound
to part `i`, so the values are the first `pre.length` dot-parts. -/
theorem map_jsGet_frontAssign_take (pre : List RefEntry) :
    ∀ (keys : List String) (rest : JSObj),
      (pre.map RefEntry.name).Nodup →
      pre.length ≤ keys.length →
      pre.map (fun r => jsGet (frontAssign pre keys ++ rest) r.name)
        = (keys.take pre.length).map some := by
  induction pre with
  | nil => intro keys rest hnd hlen; rfl
  | cons r rs ih =>
    intro keys rest hnd hlen
    cases keys with
    | nil => exact absurd hlen (by simp)
    | cons k ks =>
      have hnotin : r.name ∉ rs.map RefEntry.name :=
        (List.nodup_cons.mp (by simpa using hnd)).1
      rw [List.map_cons, show ((k :: ks).take (r :: rs).length)
          = k :: ks.take rs.length from rfl, List.map_cons]
      congr 1
      · simp [frontAssign, jsGet]
      · have hstep : ∀ r' ∈ rs,
            jsGet (frontAssign (r :: rs) (k :: ks) ++ rest) r'.name
              = jsGet (frontAssign rs ks ++ rest) r'.name := by
          intro r' hr'
          have hne : r.name ≠ r'.name := fun hcon =>
            hnotin (hcon ▸ List.mem_map_of_mem RefEntry.name hr')
          simp [frontAssign, jsGet, hne]
        rw [List.map_congr_left hstep,
          ih ks rest (by simpa using hnd.of_cons) (by simpa using hlen)]

/-- The backward walk binds the `j`-th walked entry to the last dot-part
remaining after `j` pops, `undefined` when the key has run out. -/
theorem map_jsGet_backAssign (l : List RefEntry) :
    ∀ (keys : List String) (rest : JSObj),
      (l.map RefEntry.name).Nodup →
      l.map (fun r => jsGet (backAssign l keys ++ rest) r.name)
        = (List.range l.length).map (fun j => (chopN j keys).getLast?) := by
  induction l with
  | nil => intro keys rest hnd; rfl
  | cons r rs ih =>
    intro keys rest hnd
    have hnotin : r.name ∉ rs.map RefEntry.name :=
      (List.nodup_cons.mp (by simpa using hnd)).1
    rw [show (r :: rs).length = rs.length + 1 from rfl,
      List.range_succ_eq_map]
    simp only [List.map_cons, List.map_map]
    congr 1
    · simp [backAssign, jsGet, chopN]
    · have hstep : ∀ r' ∈ rs,
          jsGet (backAssign (r :: rs) keys ++ rest) r'.name
            = jsGet (backAssign rs keys.dropLast ++ rest) r'.name := by
        intro r' hr'
        have hne : r.name ≠ r'.name := fun hcon =>
          hnotin (hcon ▸ List.mem_map_of_mem RefEntry.name hr')
        simp [backAssign, jsGet, hne]
      rw [List.map_congr_left hstep,
        ih keys.dropLast rest (by simpa using hnd.of_cons)]
      refine List.map_congr_left fun j _ => ?_
      rfl

/-- Splitting off the last element under `drop`. -/
theorem drop_eq_dropLast_drop (keys : List String) (t : Nat)
    (h : t ≤ keys.length - 1) (hne : keys ≠ []) :
    keys.drop t = keys.dropLast.drop t ++ [keys.getLast hne] := by
  conv_lhs => rw [← List.dropLast_append_getLast hne]
  rw [List.drop_append_of_le_length (by simpa using h)]

/-- The backward walk, when the key has enough parts: the walked entries
receive the last `l.length` dot-parts, from the last one inward. -/
theorem map_jsGet_backAssign_drop (l : List RefEntry) :
    ∀ (keys : List String) (rest : JSObj),
      (l.map RefEntry.name).Nodup →
      l.length ≤ keys.length →
      l.map (fun r => jsGet (backAssign l keys ++ rest) r.name)
        = ((keys.drop (keys.length - l.length)).reverse).map some := by
  induction l with
  | nil => intro keys rest hnd hlen; simp
  | cons r rs ih =>
    intro keys rest hnd hlen
    have hne : keys ≠ [] := by
      intro hk; rw [hk] at hlen; exact absurd hlen (by simp)
    have hnotin : r.name ∉ rs.map RefEntry.name :=
      (List.nodup_cons.mp (by simpa using hnd)).1
    have hdrop : keys.drop (keys.length - (r :: rs).length)
        = keys.dropLast.drop (keys.dropLast.length - rs.length)
            ++ [keys.getLast hne] := by
      rw [List.length_dropLast]
      rw [show keys.length - (r :: rs).length
          = keys.length - 1 - rs.length by
        simp only [List.length_cons]; omega]
      exact drop_eq_dropLast_drop keys _ (by omega) hne
    rw [List.map_cons, hdrop, List.reverse_append, List.reverse_singleton,
      List.singleton_append, List.map_cons]
    congr 1
    · simp [backAssign, jsGet, List.getLast?_eq_getLast keys hne]
    · have hstep : ∀ r' ∈ rs,
          jsGet (backAssign (r :: rs) keys ++ rest) r'.name
            = jsGet (backAssign rs keys.dropLast ++ rest) r'.name := by
        intro r' hr'
        have hne' : r.name ≠ r'.name := fun hcon =>
          hnotin (hcon ▸ List.mem_map_of_mem RefEntry.name hr')
        simp [backAssign, jsGet, hne']
      rw [List.map_congr_left hstep,
        ih keys.dropLast rest (by simpa using hnd.of_cons)
          (by simp only [List.length_cons] at hlen
              simp only [List.length_dropLast]; omega)]

/-- Iterated `dropLast` is an initial segment. -/
theorem chopN_eq_take : ∀ (n : Nat) (keys : List String),
    chopN n keys = keys.take (keys.length - n) := by
  intro n
  induction n with
  | zero => intro keys; simp [chopN]
  | succ n ih =>
    intro keys
    rw [chopN, ih keys.dropLast, List.dropLast_eq_take, List.take_take,
      List.length_take]
    congr 1
    omega

/-! ### Joining dotted strings -/

theorem intercalate_go_data (sep : String) :
    ∀ (as : List String) (acc : String),
      String.intercalate.go acc sep as
        = String.mk (acc.data ++ (as.map fun a => sep.data ++ a.data).flatten) := by
  intro as
  induction as with
  | nil => intro acc; simp; rfl
  | cons b bs ih =>
    intro acc
    rw [show String.intercalate.go acc sep (b :: bs)
        = String.intercalate.go (acc ++ sep ++ b) sep bs from rfl, ih]
    simp [String.data_append, List.append_assoc]

theorem list_intercalate_cons (sep : List Char) :
    ∀ (xs : List (List Char)) (x : List Char),
      List.intercalate sep (x :: xs)
        = x ++ (xs.map fun a => sep ++ a).flatten := by
  intro xs
  induction xs with
  | nil => intro x; simp [List.intercalate]
  | cons y ys ih =>
    intro x
    rw [show List.intercalate sep (x :: y :: ys)
        = (List.intersperse sep (x :: y :: ys)).flatten from rfl,
      List.intersperse_cons_cons, List.flatten_cons, List.flatten_cons]
    rw [show (List.intersperse sep (y :: ys)).flatten
        = List.intercalate sep (y :: ys) from rfl, ih y]
    simp [List.append_assoc]

/-- How the string-level join relates to the list-level one. -/
theorem intercalate_data (sep : String) (l : List String) :
    String.intercalate sep l
      = String.mk (List.intercalate sep.data (l.map String.data)) := by
  cases l with
  | nil => rfl
  | cons a as =>
    rw [show String.intercalate sep (a :: as)
        = String.intercalate.go a sep as from rfl, intercalate_go_data,
      List.map_cons, list_intercalate_cons, List.map_map]
    rfl

theorem intercalate_data_eq (sep : String) (l : List String) :
    (String.intercalate sep l).data
      = List.intercalate sep.data (l.map String.data) := by
  rw [intercalate_data]

theorem sep_intercalate_eq (sep : List Char) (b : List (List Char))
    (hb : b ≠ []) :
    sep ++ List.intercalate sep b = (b.map fun a => sep ++ a).flatten := by
  cases b with
  | nil => exact absurd rfl hb
  | cons x xs =>
    rw [list_intercalate_cons]
    simp [List.append_assoc]

/-- A joined block inside a join collapses (list level). -/
theorem list_intercalate_collapse (sep : List Char) (a c : List (List Char))
    (b : List (List Char)) (hb : b ≠ []) :
    List.intercalate sep (a ++ List.intercalate sep b :: c)
      = List.intercalate sep (a ++ (b ++ c)) := by
  cases a with
  | nil =>
    cases b with
    | nil => exact absurd rfl hb
    | cons x xs =>
      simp only [List.nil_append, List.cons_append]
      rw [list_intercalate_cons sep c (List.intercalate sep (x :: xs)),
        list_intercalate_cons sep (xs ++ c) x,
        list_intercalate_cons sep xs x]
      simp [List.map_append, List.flatten_append, List.append_assoc]
  | cons a₀ a' =>
    simp only [List.cons_append]
    rw [list_intercalate_cons sep (a' ++ List.intercalate sep b :: c) a₀,
      list_intercalate_cons sep (a' ++ (b ++ c)) a₀]
    congr 1
    simp only [List.map_append, List.flatten_append, List.map_cons,
      List.flatten_cons]
    congr 1
    rw [← sep_intercalate_eq sep b hb]

/-- A joined block inside a join collapses (string level). -/
theorem intercalate_collapse (a c b : List String) (hb : b ≠ []) :
    String.intercalate "." (a ++ String.intercalate "." b :: c)
      = String.intercalate "." (a ++ (b ++ c)) := by
  refine String.ext ?_
  rw [intercalate_data_eq "." (a ++ String.intercalate "." b :: c),
    intercalate_data_eq "." (a ++ (b ++ c))]
  simp only [List.map_append, List.map_cons, intercalate_data_eq]
  exact list_intercalate_collapse (".").data (a.map String.data)
    (c.map String.data) (b.map String.data)
    (by simpa using hb)

/-- Joining the dot-split of a string with dots gives the string back. -/
theorem intercalate_split (s : String) :
    String.intercalate "." (s.split (· == '.')) = s := by
  rw [String.split_of_valid, intercalate_data, List.map_map]
  have hid : (List.splitOnP (· == '.') s.data).map (String.data ∘ String.mk)
      = List.splitOnP (· == '.') s.data := by
    rw [List.map_congr_left fun x _ => rfl]
    exact List.map_id _
  rw [hid]
  rw [show List.splitOnP (fun c => c == '.') s.data
      = s.data.splitOn '.' from rfl]
  rw [show (("." : String)).data = ['.'] from rfl,
    List.intercalate_splitOn s.data '.']

/-! ### Sequencing option values -/

theorem allSome_map_some (u : List String) : allSome (u.map some) = some u := by
  induction u with
  | nil => rfl
  | cons a u ih => simp [allSome, ih]

theorem allSome_append_map_some (u : List String) (x : List (Option String)) :
    allSome (u.map some ++ x) = (allSome x).map (u ++ ·) := by
  induction u with
  | nil =>
    simp only [List.map_nil, List.nil_append]
    cases h : allSome x <;> simp [h]
  | cons a u ih =>
    rw [List.map_cons, List.cons_append,
      show allSome (some a :: (u.map some ++ x))
        = (allSome (u.map some ++ x)).map (a :: ·) from rfl,
      ih, Option.map_map]
    cases h : allSome x <;> simp [h]

/-! ### Concrete routing keys -/

theorem split_ab : "a.b".split (· == '.') = ["a", "b"] := by
  rw [String.split_of_valid]; decide

theorem split_abcd : "a.b.c.d".split (· == '.') = ["a", "b", "c", "d"] := by
  rw [String.split_of_valid]; decide

/-! ### C6 / C7: the parser theorems -/

theorem nodup_parts {pre : List RefEntry} {m : RefEntry} {post : List RefEntry}
    (hnd : ((pre ++ m :: post).map RefEntry.name).Nodup) :
    (pre.map RefEntry.name).Nodup ∧ (post.map RefEntry.name).Nodup ∧
      m.name ∉ pre.map RefEntry.name ∧ m.name ∉ post.map RefEntry.name ∧
      (∀ a, a ∈ post.map RefEntry.name → a ∈ pre.map RefEntry.name → False) := by
  rw [List.map_append, List.map_cons] at hnd
  have hndtail := hnd.of_append_right
  have hdisj := List.disjoint_of_nodup_append hnd
  exact ⟨hnd.of_append_left, hndtail.of_cons,
    fun h => hdisj h (List.mem_cons_self _ _),
    (List.nodup_cons.mp hndtail).1,
    fun a hpo hpr => hdisj hpr (List.mem_cons_of_mem _ hpo)⟩

theorem frontAssign_fresh {pre : List RefEntry} {keys : List String}
    {n : String} (h : n ∉ pre.map RefEntry.name) :
    ∀ p ∈ frontAssign pre keys, p.1 ≠ n := by
  intro p hp hcon
  apply h
  rw [← hcon, ← frontAssign_fst pre keys]
  exact List.mem_map_of_mem Prod.fst hp

theorem backAssign_fresh {l : List RefEntry} {keys : List String}
    {n : String} (h : n ∉ l.map RefEntry.name) :
    ∀ p ∈ backAssign l keys, p.1 ≠ n := by
  intro p hp hcon
  apply h
  rw [← hcon, ← backAssign_fst l keys]
  exact List.mem_map_of_mem Prod.fst hp

/-- C7 amended: the parser splits the key on dots and walks the
reference forward assigning successive dot-parts until a `multipleWords`
entry; entry `i` receives dot-part `i` (JavaScript `undefined` when the
key has fewer parts — the count is never checked, and surplus dot-parts
are ignored).  When a `multipleWords` entry exists, the reference is
walked backward from the tail, the `j`-th entry from the end receiving
the last dot-part remaining after `j` pops, and the `multipleWords`
entry receives the joined (possibly empty) remainder. -/
theorem routing_key_parser_algorithm (ref : List RefEntry) (key : String)
    (keys : List String)
    (hsplit : key.split (· == '.') = keys)
    (hnd : (ref.map RefEntry.name).Nodup) :
    ((∀ r ∈ ref, r.multipleWords = false) →
      parseRoutingKey ref key = some (frontAssign ref keys) ∧
      ref.map (fun r => jsGet (frontAssign ref keys) r.name)
        = (List.range ref.length).map fun i => keys.get? i)
    ∧ (∀ pre m post, ref = pre ++ m :: post → m.multipleWords = true →
        (∀ r ∈ pre, r.multipleWords = false) →
        (∀ r ∈ post, r.multipleWords = false) →
        parseRoutingKey ref key = some (multiParsed pre m post keys) ∧
        pre.map (fun r => jsGet (multiParsed pre m post keys) r.name)
          = ((List.range pre.length).map fun i => keys.get? i) ∧
        jsGet (multiParsed pre m post keys) m.name
          = some (String.intercalate "."
              (chopN post.length (keys.drop pre.length))) ∧
        post.reverse.map (fun r => jsGet (multiParsed pre m post keys) r.name)
          = ((List.range post.length).map
              fun j => (chopN j (keys.drop pre.length)).getLast?)) := by
  constructor
  · intro hnm
    constructor
    · simp only [parseRoutingKey, hsplit]
      exact parse_no_multi ref keys hnm hnd
    · have h := map_jsGet_frontAssign ref keys [] hnd
      rwa [List.append_nil] at h
  · intro pre m post hrefeq hm hpre hpost
    subst hrefeq
    obtain ⟨hndpre, hndpost, hm_pre, hm_post, hdisj⟩ := nodup_parts hnd
    have hndrev : (post.reverse.map RefEntry.name).Nodup := by
      rw [List.map_reverse]; exact List.nodup_reverse.mpr hndpost
    have hm_rev : m.name ∉ post.reverse.map RefEntry.name := by
      rw [List.map_reverse]; simpa using hm_post
    refine ⟨?_, ?_, ?_, ?_⟩
    · simp only [parseRoutingKey, hsplit]
      exact parse_one_multi pre m post keys hm hpre hpost hnd
    · have h := map_jsGet_frontAssign pre keys
        (backAssign post.reverse (keys.drop pre.length)
          ++ [(m.name, some (String.intercalate "."
            (chopN post.length (keys.drop pre.length))))]) hndpre
      simpa only [multiParsed, List.append_assoc] using h
    · simp only [multiParsed, List.append_assoc]
      rw [jsGet_append_fresh _ _ _ (frontAssign_fresh hm_pre),
        jsGet_append_fresh _ _ _ (backAssign_fresh hm_rev)]
      simp [jsGet]
    · have hstep : ∀ r ∈ post.reverse,
          jsGet (multiParsed pre m post keys) r.name
            = jsGet (backAssign post.reverse (keys.drop pre.length)
                ++ [(m.name, some (String.intercalate "."
                  (chopN post.length (keys.drop pre.length))))]) r.name := by
        intro r hr
        simp only [multiParsed, List.append_assoc]
        exact jsGet_append_fresh _ _ _ (frontAssign_fresh fun hmem =>
          hdisj r.name
            (List.mem_map_of_mem RefEntry.name (List.mem_reverse.mp hr)) hmem)
      rw [List.map_congr_left hstep,
        map_jsGet_backAssign post.reverse (keys.drop pre.length) _ hndrev,
        List.length_reverse]

/-- C7 witness: a concrete reference with one `multipleWords` entry and a
four-part key, run through the characterization. -/
theorem routing_key_parser_algorithm_witness :
    parseRoutingKey [⟨"x", false⟩, ⟨"m", true⟩, ⟨"y", false⟩] "a.b.c.d"
        = some (multiParsed [⟨"x", false⟩] ⟨"m", true⟩ [⟨"y", false⟩]
            ["a", "b", "c", "d"]) ∧
      jsGet (multiParsed [⟨"x", false⟩] ⟨"m", true⟩ [⟨"y", false⟩]
          ["a", "b", "c", "d"]) "m" = some "b.c" := by
  have h := (routing_key_parser_algorithm
      [⟨"x", false⟩, ⟨"m", true⟩, ⟨"y", false⟩] "a.b.c.d"
      ["a", "b", "c", "d"] split_abcd (by decide)).2
      [⟨"x", false⟩] ⟨"m", true⟩ [⟨"y", false⟩] rfl rfl
      (by decide) (by decide)
  refine ⟨h.1, ?_⟩
  rw [show (⟨"m", true⟩ : RefEntry).name = "m" from rfl] at h
  rw [h.2.2.1]
  rfl

/-- C7 counterexample: with the one-entry reference `[x]` (no
`multipleWords` part) and the two-part key `a.b`, the parser still
produces a routing map even though the number of dot-parts (2) differs
from the number of reference entries (1): the count is not checked and
the surplus part is dropped. -/
theorem parser_ignores_count_mismatch :
    parseRoutingKey [⟨"x", false⟩] "a.b" = some [("x", some "a")] ∧
      ("a.b".split (· == '.')).length ≠ ([⟨"x", false⟩] : List RefEntry).length := by
  constructor
  · simp only [parseRoutingKey, split_ab]
    decide
  · rw [split_ab]
    decide

/-- C6 amended: the round-trip law holds under the counting conditions
the code actually needs: distinct part names, and the number of
dot-parts equal to the number of entries (no `multipleWords` entry) or
at least the number of entries (one `multipleWords` entry, whose value
then spans at least one dot-part). -/
theorem routing_key_roundtrip (ref : List RefEntry) (key : String)
    (keys : List String) (routing : JSObj)
    (hsplit : key.split (· == '.') = keys)
    (hnd : (ref.map RefEntry.name).Nodup)
    (hshape : ((∀ r ∈ ref, r.multipleWords = false) ∧ keys.length = ref.length)
      ∨ ((∃ pre m post, ref = pre ++ m :: post ∧ m.multipleWords = true
           ∧ (∀ r ∈ pre, r.multipleWords = false)
           ∧ (∀ r ∈ post, r.multipleWords = false))
         ∧ ref.length ≤ keys.length))
    (hp : parseRoutingKey ref key = some routing) :
    joinRouting ref routing = some key := by
  simp only [parseRoutingKey, hsplit] at hp
  rcases hshape with ⟨hnm, hlen⟩ | ⟨⟨pre, m, post, hrefeq, hm, hpre, hpost⟩, hlen⟩
  · have hparse := parse_no_multi ref keys hnm hnd
    rw [hparse] at hp
    have hroute : routing = frontAssign ref keys := (Option.some.inj hp).symm
    subst hroute
    rw [joinRouting]
    have hvals := map_jsGet_frontAssign_take ref keys [] hnd (le_of_eq hlen.symm)
    rw [List.append_nil] at hvals
    rw [hvals, ← hlen, List.take_length, allSome_map_some, Option.map_some']
    rw [← hsplit, intercalate_split]
  · subst hrefeq
    have hparse := parse_one_multi pre m post keys hm hpre hpost hnd
    rw [hparse] at hp
    have hroute : routing = multiParsed pre m post keys := (Option.some.inj hp).symm
    subst hroute
    obtain ⟨hndpre, hndpost, hm_pre, hm_post, hdisj⟩ := nodup_parts hnd
    have hndrev : (post.reverse.map RefEntry.name).Nodup := by
      rw [List.map_reverse]; exact List.nodup_reverse.mpr hndpost
    have hm_rev : m.name ∉ post.reverse.map RefEntry.name := by
      rw [List.map_reverse]; simpa using hm_post
    have hlen' : pre.length + post.length + 1 ≤ keys.length := by
      simp only [List.length_append, List.length_cons] at hlen
      omega
    have hlenpre : pre.length ≤ keys.length := by omega
    have hlendrop : (keys.drop pre.length).length = keys.length - pre.length := by
      simp
    have hlenpost : post.length ≤ (keys.drop pre.length).length := by
      rw [hlendrop]; omega
    rw [joinRouting, List.map_append, List.map_cons]
    -- the three segments of the value list
    have hvpre := map_jsGet_frontAssign_take pre keys
      (backAssign post.reverse (keys.drop pre.length)
        ++ [(m.name, some (String.intercalate "."
          (chopN post.length (keys.drop pre.length))))]) hndpre hlenpre
    have hvm : jsGet (multiParsed pre m post keys) m.name
        = some (String.intercalate "."
            (chopN post.length (keys.drop pre.length))) := by
      simp only [multiParsed, List.append_assoc]
      rw [jsGet_append_fresh _ _ _ (frontAssign_fresh hm_pre),
        jsGet_append_fresh _ _ _ (backAssign_fresh hm_rev)]
      simp [jsGet]
    have hstep : ∀ r ∈ post,
        jsGet (multiParsed pre m post keys) r.name
          = jsGet (backAssign post.reverse (keys.drop pre.length)
              ++ [(m.name, some (String.intercalate "."
                (chopN post.length (keys.drop pre.length))))]) r.name := by
      intro r hr
      simp only [multiParsed, List.append_assoc]
      exact jsGet_append_fresh _ _ _ (frontAssign_fresh fun hmem =>
        hdisj r.name (List.mem_map_of_mem RefEntry.name hr) hmem)
    have hvrev := map_jsGet_backAssign_drop post.reverse (keys.drop pre.length)
      [(m.name, some (String.intercalate "."
        (chopN post.length (keys.drop pre.length))))] hndrev
      (by rw [List.length_reverse]; exact hlenpost)
    rw [List.length_reverse] at hvrev
    have hvpost : post.map (fun r => jsGet (multiParsed pre m post keys) r.name)
        = ((keys.drop pre.length).drop
            ((keys.drop pre.length).length - post.length)).map some := by
      rw [List.map_congr_left hstep]
      have := congrArg List.reverse hvrev
      rw [List.map_reverse, List.reverse_reverse, List.map_reverse,
        List.reverse_reverse] at this
      exact this
    rw [show pre.map (fun r => jsGet (multiParsed pre m post keys) r.name)
        = (keys.take pre.length).map some by
      simpa only [multiParsed, List.append_assoc] using hvpre]
    rw [hvm, hvpost, allSome_append_map_some]
    rw [show allSome (some (String.intercalate "."
          (chopN post.length (keys.drop pre.length)))
          :: ((keys.drop pre.length).drop
            ((keys.drop pre.length).length - post.length)).map some)
        = some (String.intercalate "." (chopN post.length (keys.drop pre.length))
            :: (keys.drop pre.length).drop
              ((keys.drop pre.length).length - post.length)) by
      show ((allSome (((keys.drop pre.length).drop
          ((keys.drop pre.length).length - post.length)).map some)).map _) = _
      rw [allSome_map_some]
      rfl]
    rw [Option.map_some', Option.map_some']
    congr 1
    rw [chopN_eq_take]
    have hmidne : (keys.drop pre.length).take
        ((keys.drop pre.length).length - post.length) ≠ [] := by
      have hpos : 0 < (keys.drop pre.length).length - post.length := by
        rw [hlendrop]; omega
      intro hcon
      have := congrArg List.length hcon
      rw [List.length_take] at this
      simp only [List.length_nil] at this
      omega
    rw [intercalate_collapse _ _ _ hmidne, List.take_append_drop,
      List.take_append_drop, ← hsplit, intercalate_split]

/-- C6 counterexample: for the reference `[x, m (multipleWords), y]` and
routing key `a.b`, the parser produces the map
`x = "a", y = "b", m = ""` (the empty remainder is permitted), but
joining its values in reference order with dots gives `a..b`, not the
original key `a.b` — so the round-trip law as stated fails. -/
theorem routing_key_roundtrip_counterexample :
    parseRoutingKey [⟨"x", false⟩, ⟨"m", true⟩, ⟨"y", false⟩] "a.b"
        = some [("x", some "a"), ("y", some "b"), ("m", some "")] ∧
      joinRouting [⟨"x", false⟩, ⟨"m", true⟩, ⟨"y", false⟩]
          [("x", some "a"), ("y", some "b"), ("m", some "")] = some "a..b" ∧
      some ("a..b" : String) ≠ some "a.b" := by
  refine ⟨?_, by decide, by decide⟩
  simp only [parseRoutingKey, split_ab]
  decide

/-- C6 witness: the amended round-trip at a concrete reference and key. -/
theorem routing_key_roundtrip_witness :
    joinRouting [⟨"x", false⟩, ⟨"m", true⟩, ⟨"y", false⟩]
        (multiParsed [⟨"x", false⟩] ⟨"m", true⟩ [⟨"y", false⟩]
          ["a", "b", "c", "d"]) = some "a.b.c.d" := by
  apply routing_key_roundtrip _ _ ["a", "b", "c", "d"] _ split_abcd (by decide)
    (Or.inr ⟨⟨[⟨"x", false⟩], ⟨"m", true⟩, [⟨"y", false⟩], rfl, rfl,
      by decide, by decide⟩, by decide⟩)
  simp only [parseRoutingKey, split_abcd]
  decide

end Pulse
